import Mathlib

/-!
Verification of the batched streaming SHA-256 dispatch pipeline of
src/third_party/hashcat_opencl/sha256_host.c.

The host program is shallowly embedded: bytes are natural numbers
(values below 256 in practice, the newline delimiter is byte 10),
streams are byte lists, machine integer truncation is modelled with
explicit reduction modulo 2 ^ 32, and the external OpenCL digest
engine (sha256_wrapper.cl, not part of the repository) is modelled
from the specification as an arbitrary per-lane digest function.
-/

/-! ## Record Reader (sha256_host.c lines 291 to 320) -/

/-- One step of the getline loop: consume bytes of the stream into the
current line accumulator, closing a raw line when the delimiter byte 10
is consumed; a final chunk with no delimiter is still a raw line, and
an empty tail after the last delimiter yields nothing (getline then
returns a negative value). Raw lines include their trailing delimiter,
exactly as getline returns them. -/
def rawLinesAux : List Nat → List Nat → List (List Nat)
  | [], acc => if acc = [] then [] else [acc]
  | b :: rest, acc =>
      if b = 10 then (acc ++ [10]) :: rawLinesAux rest []
      else rawLinesAux rest (acc ++ [b])

/-- The sequence of raw lines getline yields on the byte stream s. -/
def rawLines (s : List Nat) : List (List Nat) := rawLinesAux s []

/-- Delimiter stripping of sha256_host.c lines 300 to 304: when the raw
line is nonempty and its last byte is the delimiter, drop that one byte,
otherwise keep the line unchanged. -/
def stripNl (l : List Nat) : List Nat :=
  if l.getLast? = some 10 then l.dropLast else l

/-- The records (delimiter stripped) the reader yields on stream s. -/
def records (s : List Nat) : List (List Nat) := (rawLines s).map stripNl

/-! ## Batch Accumulator (sha256_host.c lines 285 to 327) -/

/-- Fuel-indexed batching helper: with a positive batch bound the head
batch is the next (at most) N records and the rest is batched
recursively; a zero bound reproduces the immediate break of the inner
loop at line 293, which leaves the outer loop with zero messages. The
fuel only drives structural recursion; the stream length is always
enough fuel. -/
def batchesAux {α : Type} : Nat → Nat → List α → List (List α)
  | 0, _, _ => []
  | _ + 1, _, [] => []
  | _ + 1, 0, _ :: _ => []
  | fuel + 1, N + 1, a :: rest =>
      ((a :: rest).take (N + 1)) :: batchesAux fuel (N + 1) ((a :: rest).drop (N + 1))

/-- The successive dispatched batches: the outer loop of lines 285 to
510 repeatedly fills a batch of up to N records and stops at the first
batch that comes back empty. -/
def batches {α : Type} (N : Nat) (l : List α) : List (List α) :=
  batchesAux l.length N l

/-- Running maximum record length of a batch, as accumulated at line
317 starting from 0. -/
def batchMaxLen (b : List (List Nat)) : Nat :=
  b.foldl (fun m r => max m r.length) 0

/-! ## Buffer Packer (sha256_host.c lines 329 to 367) -/

/-- Stride computation of lines 330 to 339: 64 when the maximum length
is zero, otherwise the maximum length rounded up to a multiple of 64. -/
def strideBytes (maxLen : Nat) : Nat :=
  if maxLen = 0 then 64 else ((maxLen + 63) / 64) * 64

/-- The stride the code computes for a batch. -/
def strideOfBatch (b : List (List Nat)) : Nat :=
  strideBytes (batchMaxLen b)

/-- The per-record length entry stored at line 315: the true length cast
to uint32_t, i.e. reduced modulo 2 ^ 32. -/
def lenEntry (r : List Nat) : Nat := r.length % 2 ^ 32

/-- The host length array lens_host for a batch (line 315). -/
def lensArray (b : List (List Nat)) : List Nat := b.map lenEntry

/-- One stride-sized slot of the packed buffer (lines 355 to 367): the
buffer is zero-filled by memset, then memcpy copies the first lenEntry r
bytes of the record into the slot. -/
def packSlot (s : Nat) (r : List Nat) : List Nat :=
  r.take (lenEntry r) ++ List.replicate (s - lenEntry r) 0

/-- The packed contiguous buffer msgs_bytes of a batch: the slots laid
out consecutively, slot k starting at offset k * stride. -/
def packBuffer (s : Nat) (b : List (List Nat)) : List Nat :=
  (b.map (packSlot s)).flatten

/-! ## Accelerator Dispatch (sha256_host.c lines 369 to 457) -/

/-- The word stride the host binds to the kernel at lines 341 and 402:
stride_bytes / 4 cast to uint32_t, i.e. reduced modulo 2 ^ 32. The cast
wraps once stride_bytes reaches 2 ^ 34 (a 16 GiB record), and the
wrapped value, not the true word count, is what the kernel receives. -/
def msgStride (s : Nat) : Nat := s / 4 % 2 ^ 32

/-- Modelled from the spec: the OpenCL kernel sha256_wrapper.cl is not
part of the repository; per the spec, the engine is a black box that,
for each of the n lanes, returns one fixed-size digest (8 words of 32
bits, given here as a function from word index to word value) of the
bytes 0 to len_i (exclusive) of its slot, where the kernel locates slot
i at word offset i times the bound word stride w, that is at byte
offset i * (4 * w) of the message buffer (the buffer is an array of
32-bit words on the device). The digest function itself is an arbitrary
parameter H, so every theorem below holds for any engine honouring this
contract. -/
def acceleratorDispatch (H : List Nat → Nat → Nat) (w : Nat)
    (buf : List Nat) (lens : List Nat) (n : Nat) : List (Nat → Nat) :=
  (List.range n).map fun i => H ((buf.drop (i * (4 * w))).take (lens.getD i 0))

/-! ## Result Emitter (sha256_host.c lines 102 to 112 and 459 to 478) -/

/-- Big-endian byte decomposition of one 32-bit digest word, as in the
loop at lines 467 to 474. -/
def wordBytesBE (v : Nat) : List Nat :=
  [v >>> 24 &&& 255, v >>> 16 &&& 255, v >>> 8 &&& 255, v &&& 255]

/-- The 32-byte digest obtained by writing the 8 digest words of one
output slot in big-endian word order (lines 463 to 474). -/
def digestBytes (d : Nat → Nat) : List Nat :=
  ((List.range 8).map fun j => wordBytesBE (d j)).flatten

/-- The lowercase hexadecimal digit alphabet of digest_to_hex, as ASCII
codes (line 104). -/
def hexdig : List Nat := [48, 49, 50, 51, 52, 53, 54, 55, 56, 57, 97, 98, 99, 100, 101, 102]

/-- The two hex characters a single digest byte renders to (lines 105
to 110). -/
def byteHexPair (v : Nat) : List Nat :=
  [hexdig.getD (v >>> 4) 0, hexdig.getD (v &&& 15) 0]

/-- digest_to_hex of sha256_host.c lines 102 to 112: the 64 hex
characters of the 32 digest bytes, as ASCII codes. -/
def digest_to_hex (digest : List Nat) : List Nat :=
  ((List.range 32).map fun i => byteHexPair (digest.getD i 0)).flatten

/-! ## Pipeline composition -/

/-- The output line the whole pipeline produces for one record r, as a
function of that record alone: the digest of the first lenEntry r bytes
of r, rendered as 64 hex characters plus the newline terminator. This
is the per-record reference the batched pipeline is proved to refine. -/
def recordLine (H : List Nat → Nat → Nat) (r : List Nat) : List Nat :=
  digest_to_hex (digestBytes (H (r.take (lenEntry r)))) ++ [10]

/-- Processing of one dispatched batch (lines 329 to 478): compute the
stride, pack the buffer and the length array, dispatch with the
uint32_t word stride of line 341 bound as the kernel stride argument,
and emit one hex line plus newline per record in slot order. -/
def processBatch (H : List Nat → Nat → Nat) (b : List (List Nat)) : List (List Nat) :=
  (acceleratorDispatch H (msgStride (strideOfBatch b)) (packBuffer (strideOfBatch b) b)
      (lensArray b) b.length).map
    fun d => digest_to_hex (digestBytes d) ++ [10]

/-- The digest the dispatch returns for slot i of batch b. -/
def batchDigest (H : List Nat → Nat → Nat) (b : List (List Nat)) (i : Nat) : Nat → Nat :=
  (acceleratorDispatch H (msgStride (strideOfBatch b)) (packBuffer (strideOfBatch b) b)
    (lensArray b) b.length).getD i fun _ => 0

/-- The full sequence of output lines the pipeline writes for a stream:
batches are processed in order and their lines concatenated. -/
def pipelineOutput (H : List Nat → Nat → Nat) (N : Nat) (input : List Nat) : List (List Nat) :=
  ((batches N (records input)).map (processBatch H)).flatten

/-! ## Driver and error model (sha256_host.c lines 114 to 536) -/

/-- An input stream together with whether the read that follows the
last byte reports a read error (rather than end of stream). getline
returns a negative value in both cases, and line 295 breaks out of the
reading loop on any negative return without consulting ferror, so the
flag cannot influence the embedded driver. -/
structure InputStream where
  bytes : List Nat
  readFails : Bool

/-- The driver loop of lines 285 to 536 after successful
initialisation: every batch is read, dispatched and emitted, the first
empty batch terminates the loop, and main falls through to return 0 at
line 536. A negative getline return is treated as end of stream at line
295 whether or not it was a read error, so the result ignores
readFails. -/
def runBatchDriver (H : List Nat → Nat → Nat) (N : Nat) (st : InputStream) :
    List (List Nat) × Nat :=
  (pipelineOutput H N st.bytes, 0)

/-! ## Initialisation order and failure paths (sha256_host.c lines 114 to 285) -/

/-- Observable events of the initialisation phase of main, in program
order. openOutput is emitted exactly when fopen of the output path with
mode wb succeeds, which creates the file or truncates an existing one. -/
inductive Ev : Type
  | openInput : Ev
  | openOutput : Ev
  | queryPlatforms : Ev
  | queryDevices : Ev
  | buildProgram : Ev
  | allocBatchMeta : Ev
  | runBatches : Ev
  | exitCode : Nat → Ev
deriving DecidableEq

/-- The environment a run faces: whether the two fopen calls succeed,
how many OpenCL platforms exist, whether some platform has a device,
whether the kernel builds, and whether the batch metadata allocation
succeeds. -/
structure Env : Type where
  inputOk : Bool
  outputOk : Bool
  platformCount : Nat
  deviceFound : Bool
  buildOk : Bool
  allocOk : Bool

/-- The event trace of main in environment e, following lines 128 to
285 of sha256_host.c: input fopen (line 128, return 1 on failure),
output fopen (line 135, return 1 on failure), platform query (lines 144
to 153), device selection (lines 163 to 205), program build (lines 228
to 256, CHECK_CL exits 1 on failure), batch metadata allocation (lines
264 to 274), then the batch loop and the final return 0 at line 536. -/
def mainTrace (e : Env) : List Ev :=
  if ¬ e.inputOk then [Ev.exitCode 1]
  else if ¬ e.outputOk then [Ev.openInput, Ev.exitCode 1]
  else [Ev.openInput, Ev.openOutput, Ev.queryPlatforms] ++
    (if e.platformCount = 0 then [Ev.exitCode 1]
     else [Ev.queryDevices] ++
       (if ¬ e.deviceFound then [Ev.exitCode 1]
        else [Ev.buildProgram] ++
          (if ¬ e.buildOk then [Ev.exitCode 1]
           else [Ev.allocBatchMeta] ++
             (if ¬ e.allocOk then [Ev.exitCode 1]
              else [Ev.runBatches, Ev.exitCode 0]))))

/-- A fixed concrete digest engine used by the evaluation witnesses:
every lane digests to the all-zero word vector. -/
def H0 : List Nat → Nat → Nat := fun _ _ => 0

/-! ## Reader lemmas -/

theorem rawLinesAux_no_delim (l : List Nat) : ∀ acc : List Nat, (10:Nat) ∉ l →
    rawLinesAux l acc = if acc ++ l = [] then [] else [acc ++ l] := by
  induction l with
  | nil => intro acc _; simp [rawLinesAux]
  | cons b rest ih =>
      intro acc h
      have hb : b ≠ 10 := fun e => h (e ▸ List.mem_cons_self b rest)
      simp only [rawLinesAux, if_neg hb]
      rw [ih (acc ++ [b]) (fun hm => h (List.mem_cons_of_mem b hm))]
      simp

theorem rawLinesAux_delim (a : List Nat) : ∀ (acc t : List Nat), (10:Nat) ∉ a →
    rawLinesAux (a ++ 10 :: t) acc = (acc ++ a ++ [10]) :: rawLinesAux t [] := by
  induction a with
  | nil => intro acc t _; simp [rawLinesAux]
  | cons b rest ih =>
      intro acc t h
      have hb : b ≠ 10 := fun e => h (e ▸ List.mem_cons_self b rest)
      simp only [List.cons_append, rawLinesAux, if_neg hb, List.append_eq]
      rw [ih (acc ++ [b]) t (fun hm => h (List.mem_cons_of_mem b hm))]
      simp

theorem rawLines_no_delim (s : List Nat) (h : (10:Nat) ∉ s) (hne : s ≠ []) :
    rawLines s = [s] := by
  unfold rawLines
  rw [rawLinesAux_no_delim s [] h]
  simp [hne]

theorem rawLines_delim (a t : List Nat) (h : (10:Nat) ∉ a) :
    rawLines (a ++ 10 :: t) = (a ++ [10]) :: rawLines t := by
  unfold rawLines
  rw [rawLinesAux_delim a [] t h]
  simp

theorem exists_delim_split (s : List Nat) (h : (10:Nat) ∈ s) :
    ∃ a t, s = a ++ 10 :: t ∧ (10:Nat) ∉ a := by
  induction s with
  | nil => cases h
  | cons b rest ih =>
      by_cases hb : b = 10
      · exact ⟨[], rest, by simp [hb], by simp⟩
      · have hr : (10:Nat) ∈ rest := by
          rcases List.mem_cons.mp h with h1 | h2
          · exact absurd h1.symm hb
          · exact h2
        obtain ⟨a, t, rfl, ha⟩ := ih hr
        refine ⟨b :: a, t, by simp, ?_⟩
        intro hm
        rcases List.mem_cons.mp hm with h1 | h2
        · exact hb h1.symm
        · exact ha h2

theorem stripNl_concat_delim (l : List Nat) : stripNl (l ++ [10]) = l := by
  simp [stripNl, List.getLast?_concat]

theorem stripNl_no_delim (l : List Nat) (h : (10:Nat) ∉ l) : stripNl l = l := by
  unfold stripNl
  rw [if_neg]
  intro hl
  exact h (List.mem_of_mem_getLast? hl)

theorem records_no_delim (l : List Nat) (h : (10:Nat) ∉ l) (hne : l ≠ []) :
    records l = [l] := by
  unfold records
  rw [rawLines_no_delim l h hne]
  simp [stripNl_no_delim l h]

theorem rawLines_concat_delim_length (s : List Nat) (hne : s ≠ [])
    (hlast : s.getLast? ≠ some 10) :
    (rawLines (s ++ [10])).length = (rawLines s).length := by
  suffices hgen : ∀ (n : Nat) (s : List Nat), s.length ≤ n → s ≠ [] → s.getLast? ≠ some 10 →
      (rawLines (s ++ [10])).length = (rawLines s).length from
    hgen s.length s le_rfl hne hlast
  clear hne hlast s
  intro n
  induction n with
  | zero =>
      intro s hlen hne _
      exact absurd (List.eq_nil_of_length_eq_zero (Nat.le_zero.mp hlen)) hne
  | succ n ih =>
    intro s hlen hne hlast
    by_cases hmem : (10:Nat) ∈ s
    · obtain ⟨a, t, rfl, ha⟩ := exists_delim_split s hmem
      have ht : t ≠ [] := by
        rintro rfl
        apply hlast
        have : a ++ 10 :: ([] : List Nat) = a ++ [10] := by simp
        rw [this, List.getLast?_concat]
      have hlt : t.getLast? ≠ some 10 := by
        intro hv
        apply hlast
        rw [List.getLast?_append_of_ne_nil a (by simp : (10 :: t : List Nat) ≠ [])]
        rw [show (10 :: t : List Nat) = [10] ++ t by simp]
        rw [List.getLast?_append_of_ne_nil [10] ht]
        exact hv
      have hassoc : (a ++ 10 :: t) ++ [10] = a ++ 10 :: (t ++ [10]) := by simp
      rw [hassoc, rawLines_delim a (t ++ [10]) ha, rawLines_delim a t ha]
      simp only [List.length_cons]
      have htlen : t.length ≤ n := by
        have := List.length_append a (10 :: t) ▸ hlen
        simp at this hlen ⊢
        omega
      rw [ih t htlen ht hlt]
    · rw [rawLines_no_delim s hmem hne]
      rw [show s ++ [10] = s ++ 10 :: ([] : List Nat) by simp, rawLines_delim s [] hmem]
      simp [rawLines, rawLinesAux]

/-! ## Accumulator lemmas -/

theorem batchesAux_nil {α : Type} (fuel N : Nat) : batchesAux fuel N ([] : List α) = [] := by
  cases fuel <;> cases N <;> rfl

theorem batchesAux_congr {α : Type} : ∀ (f₁ f₂ N : Nat) (l : List α),
    l.length ≤ f₁ → l.length ≤ f₂ → batchesAux f₁ N l = batchesAux f₂ N l := by
  intro f₁
  induction f₁ with
  | zero =>
      intro f₂ N l h1 _
      have hl : l = [] := List.eq_nil_of_length_eq_zero (Nat.le_zero.mp h1)
      subst hl
      rw [batchesAux_nil, batchesAux_nil]
  | succ f ih =>
      intro f₂ N l h1 h2
      cases l with
      | nil => rw [batchesAux_nil, batchesAux_nil]
      | cons a rest =>
          cases N with
          | zero => cases f₂ with
              | zero => simp at h2
              | succ g => rfl
          | succ M =>
              cases f₂ with
              | zero => simp at h2
              | succ g =>
                  show ((a :: rest).take (M + 1)) :: batchesAux f (M + 1) ((a :: rest).drop (M + 1)) =
                    ((a :: rest).take (M + 1)) :: batchesAux g (M + 1) ((a :: rest).drop (M + 1))
                  congr 1
                  apply ih
                  · simp only [List.length_drop, List.length_cons]
                    simp only [List.length_cons] at h1
                    omega
                  · simp only [List.length_drop, List.length_cons]
                    simp only [List.length_cons] at h2
                    omega

theorem batches_nil {α : Type} (N : Nat) : batches N ([] : List α) = [] := rfl

theorem batches_cons {α : Type} (N : Nat) (a : α) (rest : List α) (hN : N ≠ 0) :
    batches N (a :: rest) = (a :: rest).take N :: batches N ((a :: rest).drop N) := by
  obtain ⟨M, rfl⟩ := Nat.exists_eq_succ_of_ne_zero hN
  show batchesAux (rest.length + 1) (M + 1) (a :: rest) = _
  show ((a :: rest).take (M + 1)) :: batchesAux rest.length (M + 1) ((a :: rest).drop (M + 1)) = _
  congr 1
  apply batchesAux_congr
  · simp only [List.length_drop, List.length_cons]
    omega
  · exact le_rfl

theorem batches_induction {α : Type} (N : Nat) (hN : N ≠ 0) (P : List α → Prop)
    (h0 : P []) (hstep : ∀ l : List α, l ≠ [] → P (l.drop N) → P l) : ∀ l : List α, P l := by
  suffices hgen : ∀ (n : Nat) (l : List α), l.length ≤ n → P l from fun l => hgen l.length l le_rfl
  intro n
  induction n with
  | zero =>
      intro l hl
      rw [List.eq_nil_of_length_eq_zero (Nat.le_zero.mp hl)]
      exact h0
  | succ n ih =>
      intro l hl
      cases l with
      | nil => exact h0
      | cons a rest =>
          refine hstep _ (by simp) (ih _ ?_)
          simp only [List.length_drop, List.length_cons]
          simp only [List.length_cons] at hl
          omega

theorem batches_flatten {α : Type} (N : Nat) (hN : N ≠ 0) (l : List α) :
    (batches N l).flatten = l := by
  refine batches_induction N hN (fun l => (batches N l).flatten = l) (by simp [batches_nil]) ?_ l
  intro l hne ih
  cases l with
  | nil => exact absurd rfl hne
  | cons a rest =>
      rw [batches_cons N a rest hN]
      simp only [List.flatten_cons, ih]
      exact List.take_append_drop N (a :: rest)

theorem mem_batches_ne_nil {α : Type} (N : Nat) (hN : N ≠ 0) (l : List α) :
    ∀ b ∈ batches N l, b ≠ [] := by
  refine batches_induction N hN (fun l => ∀ b ∈ batches N l, b ≠ []) (by simp [batches_nil]) ?_ l
  intro l hne ih
  cases l with
  | nil => exact absurd rfl hne
  | cons a rest =>
      rw [batches_cons N a rest hN]
      intro b hb
      rcases List.mem_cons.mp hb with h1 | h2
      · subst h1
        simp [List.take_eq_nil_iff, hN]
      · exact ih b h2

theorem mem_batches_length_le {α : Type} (N : Nat) (hN : N ≠ 0) (l : List α) :
    ∀ b ∈ batches N l, b.length ≤ N := by
  refine batches_induction N hN (fun l => ∀ b ∈ batches N l, b.length ≤ N) (by simp [batches_nil]) ?_ l
  intro l hne ih
  cases l with
  | nil => exact absurd rfl hne
  | cons a rest =>
      rw [batches_cons N a rest hN]
      intro b hb
      rcases List.mem_cons.mp hb with h1 | h2
      · subst h1
        simp
      · exact ih b h2

theorem batches_full_except_last {α : Type} (N : Nat) (hN : N ≠ 0) (l : List α) :
    ∀ i : Nat, i + 1 < (batches N l).length → ((batches N l).getD i []).length = N := by
  refine batches_induction N hN
    (fun l => ∀ i : Nat, i + 1 < (batches N l).length → ((batches N l).getD i []).length = N)
    (by simp [batches_nil]) ?_ l
  intro l hne ih
  cases l with
  | nil => exact absurd rfl hne
  | cons a rest =>
      rw [batches_cons N a rest hN]
      intro i hi
      cases i with
      | zero =>
          simp only [List.getD_cons_zero, List.length_take, List.length_cons]
          simp only [List.length_cons] at hi
          have hb : batches N ((a :: rest).drop N) ≠ [] := by
            intro h0
            rw [h0] at hi
            simp at hi
          have : (a :: rest).drop N ≠ [] := by
            intro h0
            rw [h0, batches_nil] at hb
            exact hb rfl
          simp only [ne_eq, List.drop_eq_nil_iff, not_le, List.length_cons] at this
          omega
      | succ j =>
          simp only [List.getD_cons_succ]
          apply ih
          simp only [List.length_cons] at hi
          omega

theorem batches_exact_multiple {α : Type} (N : Nat) (hN : N ≠ 0) (l : List α) :
    ∀ k : Nat, l.length = k * N →
      (batches N l).length = k ∧ ∀ b ∈ batches N l, b.length = N := by
  refine batches_induction N hN
    (fun l => ∀ k : Nat, l.length = k * N →
      (batches N l).length = k ∧ ∀ b ∈ batches N l, b.length = N) ?_ ?_ l
  · intro k hk
    simp only [List.length_nil] at hk
    have hk0 : k = 0 := by
      rcases Nat.mul_eq_zero.mp hk.symm with h | h
      · exact h
      · exact absurd h hN
    subst hk0
    simp [batches_nil]
  · intro l hne ih k hk
    cases l with
    | nil => exact absurd rfl hne
    | cons a rest =>
        have hk1 : k ≠ 0 := by
          intro h0
          subst h0
          simp at hk
        obtain ⟨j, rfl⟩ := Nat.exists_eq_succ_of_ne_zero hk1
        have hlen : N ≤ (a :: rest).length := by
          rw [hk]
          calc N = 1 * N := (Nat.one_mul N).symm
          _ ≤ (j + 1) * N := Nat.mul_le_mul_right N (by omega)
        have hdrop : ((a :: rest).drop N).length = j * N := by
          simp only [List.length_drop]
          rw [hk]
          rw [Nat.succ_mul]
          omega
        obtain ⟨ihl, ihb⟩ := ih j hdrop
        rw [batches_cons N a rest hN]
        constructor
        · simp [ihl]
        · intro b hb
          rcases List.mem_cons.mp hb with h1 | h2
          · subst h1
            simp only [List.length_take]
            omega
          · exact ihb b h2

/-! ## Stride and packer lemmas -/

theorem strideBytes_eq_align (m : Nat) : strideBytes m = ((max m 1 + 63) / 64) * 64 := by
  unfold strideBytes
  by_cases h : m = 0
  · subst h
    norm_num
  · rw [if_neg h]
    have hm : max m 1 = m := by omega
    rw [hm]

theorem le_strideBytes (m : Nat) : m ≤ strideBytes m := by
  unfold strideBytes
  by_cases h : m = 0
  · simp [h]
  · rw [if_neg h]
    have h1 := Nat.div_add_mod (m + 63) 64
    have h2 : (m + 63) % 64 < 64 := Nat.mod_lt _ (by norm_num)
    omega

theorem dvd_strideBytes (m : Nat) : 64 ∣ strideBytes m := by
  unfold strideBytes
  by_cases h : m = 0
  · simp [h]
  · rw [if_neg h]
    exact ⟨(m + 63) / 64, Nat.mul_comm _ _⟩

theorem strideBytes_min (m k : Nat) (hdvd : 64 ∣ k) (hle : max m 1 ≤ k) : strideBytes m ≤ k := by
  obtain ⟨t, rfl⟩ := hdvd
  unfold strideBytes
  by_cases h : m = 0
  · rw [if_pos h]
    have h1 : 1 ≤ 64 * t := le_trans (by omega) hle
    omega
  · rw [if_neg h]
    have hm : m ≤ 64 * t := le_trans (by omega) hle
    have hq : (m + 63) / 64 ≤ t := by
      have h1 : m + 63 ≤ 64 * t + 63 := by omega
      have h2 := Nat.div_le_div_right (c := 64) h1
      have h3 : (64 * t + 63) / 64 = t := by
        rw [Nat.mul_add_div (by norm_num)]
        norm_num
      omega
    calc ((m + 63) / 64) * 64 ≤ t * 64 := Nat.mul_le_mul_right 64 hq
    _ = 64 * t := Nat.mul_comm t 64

theorem foldl_max_le_start (b : List (List Nat)) :
    ∀ acc : Nat, acc ≤ b.foldl (fun m r => max m r.length) acc := by
  induction b with
  | nil => intro acc; simp
  | cons x rest ih =>
      intro acc
      simp only [List.foldl_cons]
      exact le_trans (Nat.le_max_left acc x.length) (ih (max acc x.length))

theorem length_le_foldl_max (b : List (List Nat)) (r : List Nat) :
    ∀ acc : Nat, r ∈ b → r.length ≤ b.foldl (fun m r => max m r.length) acc := by
  induction b with
  | nil => intro acc h; cases h
  | cons x rest ih =>
      intro acc h
      simp only [List.foldl_cons]
      rcases List.mem_cons.mp h with h1 | h2
      · subst h1
        exact le_trans (Nat.le_max_right acc r.length) (foldl_max_le_start rest _)
      · exact ih _ h2

theorem length_le_batchMaxLen (b : List (List Nat)) (r : List Nat) (hr : r ∈ b) :
    r.length ≤ batchMaxLen b :=
  length_le_foldl_max b r 0 hr

theorem lenEntry_le (r : List Nat) : lenEntry r ≤ r.length := Nat.mod_le _ _

theorem lenEntry_eq_of_lt (r : List Nat) (h : r.length < 2 ^ 32) : lenEntry r = r.length :=
  Nat.mod_eq_of_lt h

theorem lenEntry_le_stride (b : List (List Nat)) (r : List Nat) (hr : r ∈ b) :
    lenEntry r ≤ strideOfBatch b :=
  le_trans (lenEntry_le r) (le_trans (length_le_batchMaxLen b r hr) (le_strideBytes _))

theorem lenEntry_def (r : List Nat) : lenEntry r = r.length % 2 ^ 32 := rfl

theorem lensArray_singleton (r : List Nat) : lensArray [r] = [lenEntry r] := rfl

theorem take_lenEntry_length (r : List Nat) : (r.take (lenEntry r)).length = lenEntry r := by
  simp [List.length_take, Nat.min_eq_left (lenEntry_le r)]

theorem packSlot_length (s : Nat) (r : List Nat) (h : lenEntry r ≤ s) :
    (packSlot s r).length = s := by
  simp only [packSlot, List.length_append, take_lenEntry_length, List.length_replicate]
  omega

theorem packBuffer_nil (s : Nat) : packBuffer s [] = [] := rfl

theorem packBuffer_cons (s : Nat) (r : List Nat) (b : List (List Nat)) :
    packBuffer s (r :: b) = packSlot s r ++ packBuffer s b := by
  simp [packBuffer]

theorem packBuffer_length (s : Nat) (b : List (List Nat)) (h : ∀ r ∈ b, lenEntry r ≤ s) :
    (packBuffer s b).length = b.length * s := by
  induction b with
  | nil => simp [packBuffer]
  | cons r rest ih =>
      rw [packBuffer_cons]
      simp only [List.length_append, List.length_cons]
      rw [packSlot_length s r (h r (by simp)), ih (fun x hx => h x (by simp [hx]))]
      ring

theorem packBuffer_drop (s : Nat) (b : List (List Nat)) (h : ∀ r ∈ b, lenEntry r ≤ s) :
    ∀ i : Nat, (packBuffer s b).drop (i * s) = packBuffer s (b.drop i) := by
  induction b with
  | nil => intro i; simp [packBuffer]
  | cons r rest ih =>
      intro i
      cases i with
      | zero => simp
      | succ j =>
          rw [packBuffer_cons]
          have hs : (packSlot s r).length = s := packSlot_length s r (h r (by simp))
          rw [show (j + 1) * s = s + j * s from by ring, ← List.drop_drop (j * s) s]
          rw [List.drop_left' hs]
          rw [ih (fun x hx => h x (by simp [hx])) j]
          simp

theorem getD_mem_of_lt {α : Type} (l : List α) (i : Nat) (d : α) (hi : i < l.length) :
    l.getD i d ∈ l := by
  rw [List.getD_eq_getElem l d hi]
  exact List.getElem_mem hi

theorem packBuffer_slot (s : Nat) (b : List (List Nat)) (h : ∀ r ∈ b, lenEntry r ≤ s)
    (i : Nat) (hi : i < b.length) :
    ((packBuffer s b).drop (i * s)).take s = packSlot s (b.getD i []) := by
  rw [packBuffer_drop s b h i]
  have hdrop : b.drop i = b.getD i [] :: b.drop (i + 1) := by
    rw [List.getD_eq_getElem b [] hi]
    exact List.drop_eq_getElem_cons hi
  rw [hdrop, packBuffer_cons]
  exact List.take_left' (packSlot_length s _ (h _ (getD_mem_of_lt b i [] hi)))

theorem packSlot_take_lenEntry (s : Nat) (r : List Nat) :
    (packSlot s r).take (lenEntry r) = r.take (lenEntry r) := by
  unfold packSlot
  exact List.take_left' (take_lenEntry_length r)

theorem getD_map_lt {α β : Type} (f : α → β) (l : List α) (i : Nat) (d : β) (d2 : α)
    (hi : i < l.length) : (l.map f).getD i d = f (l.getD i d2) := by
  rw [List.getD_eq_getElem _ d (by simpa using hi), List.getD_eq_getElem _ d2 hi,
    List.getElem_map]

/-! ## Dispatch and emitter lemmas -/

theorem range_map_getD {α β : Type} (f : α → β) (d : α) (l : List α) :
    (List.range l.length).map (fun i => f (l.getD i d)) = l.map f := by
  induction l with
  | nil => simp
  | cons a rest ih =>
      rw [List.length_cons, List.range_succ_eq_map]
      simp only [List.map_cons, List.getD_cons_zero, List.map_map]
      congr 1

theorem msgStride_mul_eq (s : Nat) (h4 : 4 ∣ s) (hs : s < 2 ^ 34) :
    4 * msgStride s = s := by
  unfold msgStride
  have hlt : s / 4 < 2 ^ 32 := by
    rw [Nat.div_lt_iff_lt_mul (by norm_num)]
    calc s < 2 ^ 34 := hs
    _ = 2 ^ 32 * 4 := by norm_num
  rw [Nat.mod_eq_of_lt hlt]
  exact Nat.mul_div_cancel' h4

theorem dvd_four_strideOfBatch (b : List (List Nat)) : 4 ∣ strideOfBatch b :=
  dvd_trans (by norm_num) (dvd_strideBytes (batchMaxLen b))

theorem packSlot_append_take (s : Nat) (r : List Nat) (rest : List Nat) :
    (packSlot s r ++ rest).take (lenEntry r) = r.take (lenEntry r) := by
  unfold packSlot
  rw [List.append_assoc]
  exact List.take_left' (take_lenEntry_length r)

theorem lane_input_eq (b : List (List Nat)) (i : Nat) (hi : i < b.length)
    (hs : strideOfBatch b < 2 ^ 34) :
    ((packBuffer (strideOfBatch b) b).drop (i * (4 * msgStride (strideOfBatch b)))).take
        ((lensArray b).getD i 0) = (b.getD i []).take (lenEntry (b.getD i [])) := by
  rw [msgStride_mul_eq (strideOfBatch b) (dvd_four_strideOfBatch b) hs]
  have hbound : ∀ r ∈ b, lenEntry r ≤ strideOfBatch b := fun r hr => lenEntry_le_stride b r hr
  rw [packBuffer_drop _ b hbound i]
  rw [show b.drop i = b.getD i [] :: b.drop (i + 1) from by
    rw [List.getD_eq_getElem b [] hi]
    exact List.drop_eq_getElem_cons hi]
  rw [packBuffer_cons]
  rw [show (lensArray b).getD i 0 = lenEntry (b.getD i []) from
    getD_map_lt lenEntry b i 0 [] hi]
  exact packSlot_append_take _ _ _

theorem acceleratorDispatch_eq_map (H : List Nat → Nat → Nat) (b : List (List Nat))
    (hs : strideOfBatch b < 2 ^ 34) :
    acceleratorDispatch H (msgStride (strideOfBatch b)) (packBuffer (strideOfBatch b) b)
      (lensArray b) b.length =
    b.map (fun r => H (r.take (lenEntry r))) := by
  unfold acceleratorDispatch
  rw [← range_map_getD (fun r => H (r.take (lenEntry r))) [] b]
  apply List.map_eq_map_iff.mpr
  intro i hi
  rw [List.mem_range] at hi
  rw [lane_input_eq b i hi hs]

theorem acceleratorDispatch_length (H : List Nat → Nat → Nat) (w : Nat)
    (buf : List Nat) (lens : List Nat) (n : Nat) :
    (acceleratorDispatch H w buf lens n).length = n := by
  unfold acceleratorDispatch
  simp

theorem batchDigest_eq (H : List Nat → Nat → Nat) (b : List (List Nat)) (i : Nat)
    (hi : i < b.length) (hs : strideOfBatch b < 2 ^ 34) :
    batchDigest H b i = H ((b.getD i []).take (lenEntry (b.getD i []))) := by
  unfold batchDigest
  rw [acceleratorDispatch_eq_map H b hs]
  exact getD_map_lt _ b i _ [] hi

theorem processBatch_eq_map (H : List Nat → Nat → Nat) (b : List (List Nat))
    (hs : strideOfBatch b < 2 ^ 34) :
    processBatch H b = b.map (recordLine H) := by
  unfold processBatch
  rw [acceleratorDispatch_eq_map H b hs, List.map_map]
  rfl

theorem processBatch_length (H : List Nat → Nat → Nat) (b : List (List Nat)) :
    (processBatch H b).length = b.length := by
  unfold processBatch
  rw [List.length_map]
  exact acceleratorDispatch_length H _ _ _ _

theorem foldl_max_le (b : List (List Nat)) (K : Nat) :
    ∀ acc : Nat, acc ≤ K → (∀ r ∈ b, r.length ≤ K) →
      b.foldl (fun m r => max m r.length) acc ≤ K := by
  induction b with
  | nil =>
      intro acc hacc _
      simpa using hacc
  | cons x rest ih =>
      intro acc hacc hall
      simp only [List.foldl_cons]
      refine ih _ (max_le hacc (hall x (by simp))) ?_
      intro r hr
      exact hall r (by simp [hr])

theorem batchMaxLen_le (b : List (List Nat)) (K : Nat) (h : ∀ r ∈ b, r.length ≤ K) :
    batchMaxLen b ≤ K :=
  foldl_max_le b K 0 (Nat.zero_le K) h

theorem strideOfBatch_lt (b : List (List Nat)) (h : ∀ r ∈ b, r.length ≤ 2 ^ 34 - 64) :
    strideOfBatch b < 2 ^ 34 := by
  have h1 : batchMaxLen b ≤ 2 ^ 34 - 64 := batchMaxLen_le b _ h
  have h2 : strideBytes (batchMaxLen b) ≤ 2 ^ 34 - 64 := by
    apply strideBytes_min
    · exact ⟨2 ^ 28 - 1, by norm_num⟩
    · exact Nat.max_le.mpr ⟨h1, by norm_num⟩
  calc strideOfBatch b ≤ 2 ^ 34 - 64 := h2
  _ < 2 ^ 34 := by norm_num

theorem mem_of_mem_batches {α : Type} (N : Nat) (hN : N ≠ 0) (l : List α) (b : List α)
    (hb : b ∈ batches N l) (r : α) (hr : r ∈ b) : r ∈ l := by
  rw [← batches_flatten N hN l]
  exact List.mem_flatten.mpr ⟨b, hb, hr⟩

theorem pipelineOutput_eq_map (H : List Nat → Nat → Nat) (N : Nat) (input : List Nat)
    (hN : N ≠ 0) (hrec : ∀ r ∈ records input, r.length ≤ 2 ^ 34 - 64) :
    pipelineOutput H N input = (records input).map (recordLine H) := by
  unfold pipelineOutput
  have h1 : (batches N (records input)).map (processBatch H) =
      (batches N (records input)).map (List.map (recordLine H)) := by
    apply List.map_eq_map_iff.mpr
    intro b hb
    apply processBatch_eq_map
    apply strideOfBatch_lt
    intro r hr
    exact hrec r (mem_of_mem_batches N hN _ b hb r hr)
  rw [h1, ← List.map_flatten, batches_flatten N hN]

theorem pipelineOutput_length (H : List Nat → Nat → Nat) (N : Nat) (input : List Nat)
    (hN : N ≠ 0) :
    (pipelineOutput H N input).length = (records input).length := by
  unfold pipelineOutput
  rw [List.length_flatten, List.map_map]
  have h1 : (List.length ∘ processBatch H) = List.length := by
    funext b
    exact processBatch_length H b
  rw [h1]
  rw [← List.length_flatten, batches_flatten N hN]

theorem digestBytes_length (d : Nat → Nat) : (digestBytes d).length = 32 := by
  unfold digestBytes
  rw [List.length_flatten, List.map_map]
  have hc : (List.length ∘ fun j => wordBytesBE (d j)) = fun _ => 4 := by
    funext j
    rfl
  rw [hc, List.map_const', List.sum_replicate]
  simp

theorem digest_to_hex_length (ds : List Nat) : (digest_to_hex ds).length = 64 := by
  unfold digest_to_hex
  rw [List.length_flatten, List.map_map]
  have hc : (List.length ∘ fun i => byteHexPair (ds.getD i 0)) = fun _ => 2 := by
    funext i
    rfl
  rw [hc, List.map_const', List.sum_replicate]
  simp

theorem mem_digestBytes_lt (d : Nat → Nat) : ∀ v ∈ digestBytes d, v < 256 := by
  intro v hv
  unfold digestBytes at hv
  rcases List.mem_flatten.mp hv with ⟨l, hl, hvl⟩
  rcases List.mem_map.mp hl with ⟨j, _, rfl⟩
  unfold wordBytesBE at hvl
  simp only [List.mem_cons, List.mem_singleton, List.not_mem_nil, or_false] at hvl
  rcases hvl with rfl | rfl | rfl | rfl
  all_goals exact Nat.lt_succ_of_le Nat.and_le_right

theorem hexdig_getD_mem (n : Nat) (hn : n < 16) : hexdig.getD n 0 ∈ hexdig := by
  have hlen : n < hexdig.length := by
    simp only [hexdig, List.length_cons, List.length_nil]
    omega
  rw [List.getD_eq_getElem hexdig 0 hlen]
  exact List.getElem_mem hlen

theorem mem_digest_to_hex (ds : List Nat) (h : ∀ v ∈ ds, v < 256) :
    ∀ c ∈ digest_to_hex ds, c ∈ hexdig := by
  intro c hc
  unfold digest_to_hex at hc
  rcases List.mem_flatten.mp hc with ⟨l, hl, hcl⟩
  rcases List.mem_map.mp hl with ⟨i, _, rfl⟩
  have hv : ds.getD i 0 < 256 := by
    by_cases hil : i < ds.length
    · exact h _ (getD_mem_of_lt ds i 0 hil)
    · rw [List.getD_eq_default ds 0 (by omega)]
      norm_num
  unfold byteHexPair at hcl
  simp only [List.mem_cons, List.mem_singleton, List.not_mem_nil, or_false] at hcl
  rcases hcl with rfl | rfl
  · apply hexdig_getD_mem
    rw [Nat.shiftRight_eq_div_pow]
    omega
  · apply hexdig_getD_mem
    have := Nat.and_le_right (n := ds.getD i 0) (m := 15)
    omega

/-! ## Claim theorems -/

set_option maxRecDepth 10000

/-- C3: For every batch the computed stride equals the maximum record
length (at least 1) rounded up to a multiple of 64: it is a multiple of
64, is at least that maximum, and no smaller multiple of 64 of that size
exists; an all-empty batch gets stride exactly 64, and a batch holding
one record of length 130 and one of length 3 gets stride 192. -/
theorem stride_align (m k : Nat) :
    strideBytes m = ((max m 1 + 63) / 64) * 64 ∧
    64 ∣ strideBytes m ∧
    max m 1 ≤ strideBytes m ∧
    (64 ∣ k → max m 1 ≤ k → strideBytes m ≤ k) ∧
    strideBytes 0 = 64 ∧
    strideOfBatch [List.replicate 130 0, List.replicate 3 0] = 192 := by
  refine ⟨strideBytes_eq_align m, dvd_strideBytes m, ?_,
    fun h1 h2 => strideBytes_min m k h1 h2, by decide, by decide⟩
  by_cases h : m = 0
  · subst h
    decide
  · have h1 := le_strideBytes m
    omega

/-- Witness for C3 at the concrete batch maximum 130 and candidate
multiple 192. -/
theorem stride_align_witness : 64 ∣ 192 ∧ max 130 1 ≤ 192 ∧ strideBytes 130 ≤ 192 :=
  ⟨by decide, by decide, (stride_align 130 192).2.2.2.1 (by decide) (by decide)⟩

/-- C7: For every line the reader pulls from the stream it strips
exactly one trailing delimiter when one is present and none otherwise:
the records are exactly the raw getline lines with one trailing
delimiter removed, a line with a trailing delimiter loses exactly that
one byte even if further delimiter bytes precede it, a final line with
no trailing delimiter is kept intact, and the resulting record may be
empty. -/
theorem reader_strips_one (s l : List Nat) :
    records s = (rawLines s).map stripNl ∧
    (∀ m ∈ rawLines s, stripNl m = if m.getLast? = some 10 then m.dropLast else m) ∧
    stripNl (l ++ [10]) = l ∧
    ((10 : Nat) ∉ l → stripNl l = l) ∧
    stripNl [10] = [] ∧
    ((10 : Nat) ∉ l → l ≠ [] → records l = [l]) :=
  ⟨rfl, fun _ _ => rfl, stripNl_concat_delim l, stripNl_no_delim l, by decide,
    records_no_delim l⟩

/-- Witness for C7: the stream with one delimited line and the final
undelimited line, evaluated concretely. -/
theorem reader_strips_one_witness :
    stripNl ([97] ++ [10]) = [97] ∧ records [98] = [[98]] :=
  ⟨(reader_strips_one [97, 10] [97]).2.2.1,
    (reader_strips_one [97, 10] [98]).2.2.2.2.2 (by decide) (by decide)⟩

/-- C6: With a positive maximum batch size, the accumulator closes a
batch exactly at the size limit or at end of stream: an empty batch
arises exactly when the stream was already exhausted, no dispatched
batch is ever empty, every dispatched batch is at most the limit, every
batch except possibly the last is exactly full, and a stream whose
record count is an exact multiple of the limit dispatches only full
batches, exactly count divided by limit of them, with no spurious empty
final batch. -/
theorem accumulator_closure (N : Nat) (l : List (List Nat)) (hN : 1 ≤ N) :
    (l.take N = [] ↔ l = []) ∧
    (∀ b ∈ batches N l, b ≠ []) ∧
    (∀ b ∈ batches N l, b.length ≤ N) ∧
    (∀ i : Nat, i + 1 < (batches N l).length → ((batches N l).getD i []).length = N) ∧
    (∀ k : Nat, l.length = k * N →
      (batches N l).length = k ∧ ∀ b ∈ batches N l, b.length = N) := by
  have hN0 : N ≠ 0 := by omega
  refine ⟨?_, mem_batches_ne_nil N hN0 l, mem_batches_length_le N hN0 l,
    batches_full_except_last N hN0 l, batches_exact_multiple N hN0 l⟩
  rw [List.take_eq_nil_iff]
  constructor
  · rintro (h | h)
    · exact absurd h hN0
    · exact h
  · intro h
    right
    exact h

/-- Witness for C6: four records with limit two dispatch exactly two
full batches. -/
theorem accumulator_closure_witness :
    (batches 2 [[97], [98], [99], [100]]).length = 2 ∧
    ([[97], [98], [99], [100]] : List (List Nat)).take 2 ≠ [] :=
  ⟨((accumulator_closure 2 [[97], [98], [99], [100]] (by decide)).2.2.2.2 2 (by decide)).1,
    by decide⟩

/-- C8 counterexample: the reader stores the record length cast to
uint32_t, so a record of 2 ^ 32 + 1 bytes is stored with length 1, the
value reduced modulo 2 ^ 32, not its true length. -/
theorem length_mod_counterexample :
    lenEntry (List.replicate (2 ^ 32 + 1) 0) ≠ (List.replicate (2 ^ 32 + 1) (0 : Nat)).length := by
  intro h
  rw [lenEntry_def, List.length_replicate, Nat.add_mod_left] at h
  rw [Nat.mod_eq_of_lt (by norm_num)] at h
  exact absurd h (by norm_num)

/-- C8 (amended): the reader itself imposes no line-length cap (a
delimiter-free stream of any length becomes one whole record), and the
stored length entry is the true length reduced modulo 2 ^ 32, hence it
equals the true length exactly when the record is shorter than 2 ^ 32
bytes. -/
theorem length_recording (r : List Nat) :
    lenEntry r = r.length % 2 ^ 32 ∧
    (r.length < 2 ^ 32 → lenEntry r = r.length) ∧
    ((10 : Nat) ∉ r → r ≠ [] → records r = [r]) :=
  ⟨rfl, lenEntry_eq_of_lt r, records_no_delim r⟩

/-- Witness for C8 at a one-byte record. -/
theorem length_recording_witness :
    ([97] : List Nat).length < 2 ^ 32 ∧ lenEntry [97] = ([97] : List Nat).length :=
  ⟨by norm_num, (length_recording [97]).2.1 (by norm_num)⟩

/-- C5 (amended): for every engine H, every positive maximum batch
size N and every input stream whose records are all at most
2 ^ 34 - 64 bytes, so that no batch stride reaches 2 ^ 34 and the
uint32_t word stride bound at line 341 is lossless, the batched
pipeline output equals the per-record reference output (the line of
each record is a function of that record alone, independent of batch
boundaries, stride and neighbours), and in particular equals the
output with maximum batch size 1; for larger records the wrapped word
stride makes lanes read at wrong offsets and invariance fails, see the
counterexample. -/
theorem batch_size_invariance (H : List Nat → Nat → Nat) (N : Nat) (input : List Nat)
    (hN : 1 ≤ N) (hrec : ∀ r ∈ records input, r.length ≤ 2 ^ 34 - 64) :
    pipelineOutput H N input = (records input).map (recordLine H) ∧
    pipelineOutput H N input = pipelineOutput H 1 input := by
  have h1 := pipelineOutput_eq_map H N input (by omega) hrec
  have h2 := pipelineOutput_eq_map H 1 input (by omega) hrec
  exact ⟨h1, h1.trans h2.symm⟩

/-- Witness for C5 on a two-line stream with batch sizes 3 and 1. -/
theorem batch_size_invariance_witness :
    (1 : Nat) ≤ 3 ∧ pipelineOutput H0 3 [97, 98, 10, 99] = pipelineOutput H0 1 [97, 98, 10, 99] :=
  ⟨by decide, (batch_size_invariance H0 3 [97, 98, 10, 99] (by decide) (by decide)).2⟩

/-- C2: For every engine, every positive maximum batch size and every
stream, the number of output lines equals the number of records getline
yields; the empty stream produces zero output lines and the run
succeeds with exit code 0; and appending a delimiter immediately before
end of stream to a stream not already ending in one does not change the
record count (the empty trailing line counts as zero records). -/
theorem output_line_count (H : List Nat → Nat → Nat) (N : Nat) (input : List Nat)
    (hN : 1 ≤ N) :
    (pipelineOutput H N input).length = (records input).length ∧
    runBatchDriver H N ⟨[], false⟩ = ([], 0) ∧
    (∀ s : List Nat, s ≠ [] → s.getLast? ≠ some 10 →
      (records (s ++ [10])).length = (records s).length) := by
  refine ⟨?_, ?_, ?_⟩
  · exact pipelineOutput_length H N input (by omega)
  · rfl
  · intro s hs hlast
    unfold records
    simp only [List.length_map]
    exact rawLines_concat_delim_length s hs hlast

/-- Witness for C2 on a concrete two-line stream. -/
theorem output_line_count_witness :
    (pipelineOutput H0 1 [97, 10, 98]).length = (records [97, 10, 98]).length ∧
    (records ([97] ++ [10])).length = (records [97]).length :=
  ⟨(output_line_count H0 1 [97, 10, 98] (by decide)).1,
    (output_line_count H0 1 [97, 10, 98] (by decide)).2.2 [97] (by decide) (by decide)⟩

/-- C4 counterexample: the packer stores each length cast to uint32_t
(line 315), so the batch holding one record of 2 ^ 32 bytes gets length
array entry 0, not the true unpadded length of the record. -/
theorem packer_true_length_counterexample :
    lensArray [List.replicate (2 ^ 32) 0] ≠ [(List.replicate (2 ^ 32) (0 : Nat)).length] := by
  intro h
  rw [lensArray_singleton, lenEntry_def, List.length_replicate, Nat.mod_self] at h
  have h2 : (0 : Nat) = 2 ^ 32 := (List.cons.inj h).1
  exact absurd h2 (by norm_num)

/-- C4 (amended): for every batch whose records are each shorter than
2 ^ 32 bytes (so that the uint32_t cast of line 315 is lossless), the
packed buffer is exactly record count times stride bytes long, the
bytes of slot i from offset 0 up to the record length are exactly the
record, the rest of slot i is deterministically zero, and length array
entry i is the true unpadded record length. -/
theorem packer_layout (b : List (List Nat)) (hlen : ∀ r ∈ b, r.length < 2 ^ 32)
    (i : Nat) (hi : i < b.length) :
    (packBuffer (strideOfBatch b) b).length = b.length * strideOfBatch b ∧
    ((packBuffer (strideOfBatch b) b).drop (i * strideOfBatch b)).take ((b.getD i []).length)
      = b.getD i [] ∧
    (((packBuffer (strideOfBatch b) b).drop (i * strideOfBatch b)).take
        (strideOfBatch b)).drop ((b.getD i []).length)
      = List.replicate (strideOfBatch b - (b.getD i []).length) 0 ∧
    (lensArray b).getD i 0 = (b.getD i []).length := by
  have hbound : ∀ r ∈ b, lenEntry r ≤ strideOfBatch b := fun r hr => lenEntry_le_stride b r hr
  have hmem : b.getD i [] ∈ b := getD_mem_of_lt b i [] hi
  have hE : lenEntry (b.getD i []) = (b.getD i []).length := lenEntry_eq_of_lt _ (hlen _ hmem)
  refine ⟨packBuffer_length _ b hbound, ?_, ?_, ?_⟩
  · have hdrop : (packBuffer (strideOfBatch b) b).drop (i * strideOfBatch b)
        = packSlot (strideOfBatch b) (b.getD i [])
          ++ packBuffer (strideOfBatch b) (b.drop (i + 1)) := by
      rw [packBuffer_drop _ b hbound i]
      rw [show b.drop i = b.getD i [] :: b.drop (i + 1) from by
        rw [List.getD_eq_getElem b [] hi]
        exact List.drop_eq_getElem_cons hi]
      exact packBuffer_cons _ _ _
    rw [hdrop]
    unfold packSlot
    rw [hE, List.take_length, List.append_assoc]
    exact List.take_left' rfl
  · rw [packBuffer_slot _ b hbound i hi]
    unfold packSlot
    rw [hE, List.take_length]
    exact List.drop_left' rfl
  · unfold lensArray
    rw [getD_map_lt lenEntry b i 0 [] hi]
    exact hE

/-- Witness for C4 at a concrete two-record batch. -/
theorem packer_layout_witness :
    (0 : Nat) < 2 ∧ (lensArray [[97, 98], [99]]).getD 0 0 = 2 :=
  ⟨by decide, (packer_layout [[97, 98], [99]] (by decide) 0 (by decide)).2.2.2⟩

/-- C1 (amended): for every engine H, every batch and every record
index below the record count, the emitter writes exactly one line per
record in ascending index order, the line at index i being exactly the
64 hex characters of the 32 bytes obtained from the 8 digest words of
output slot i in big-endian word order followed by one newline
terminator, with every hex character a lowercase hexadecimal digit,
all of that unconditionally; and whenever the batch stride is below
2 ^ 34 bytes, so that the uint32_t word stride bound at line 341 is
lossless, the line at index i is a function of input record i alone
and records are not reordered between input and output; for larger
strides the wrapped word stride breaks the per-record association, see
the counterexample. -/
theorem emitter_inorder_bigendian_hex (H : List Nat → Nat → Nat)
    (b : List (List Nat)) (i : Nat) (hi : i < b.length) :
    (processBatch H b).length = b.length ∧
    (processBatch H b).getD i []
      = digest_to_hex (digestBytes (batchDigest H b i)) ++ [10] ∧
    (digest_to_hex (digestBytes (batchDigest H b i))).length = 64 ∧
    (∀ c ∈ digest_to_hex (digestBytes (batchDigest H b i)), c ∈ hexdig) ∧
    (strideOfBatch b < 2 ^ 34 →
      (processBatch H b).getD i [] = recordLine H (b.getD i [])) := by
  have h2 : (processBatch H b).getD i []
      = digest_to_hex (digestBytes (batchDigest H b i)) ++ [10] := by
    unfold processBatch batchDigest
    exact getD_map_lt _ _ i [] (fun _ => 0)
      (by rw [acceleratorDispatch_length]; exact hi)
  refine ⟨processBatch_length H b, h2, digest_to_hex_length _,
    mem_digest_to_hex _ (mem_digestBytes_lt _), ?_⟩
  intro hs
  rw [processBatch_eq_map H b hs]
  exact getD_map_lt (recordLine H) b i [] [] hi

/-- Witness for C1 on a one-record batch under the all-zero engine. -/
theorem emitter_inorder_bigendian_hex_witness :
    (0 : Nat) < 1 ∧ (processBatch H0 [[97]]).length = 1 ∧
    (processBatch H0 [[97]]).getD 0 [] = List.replicate 64 48 ++ [10] := by
  refine ⟨by decide, (emitter_inorder_bigendian_hex H0 [[97]] 0 (by decide)).1, ?_⟩
  rw [(emitter_inorder_bigendian_hex H0 [[97]] 0 (by decide)).2.1]
  decide

/-- C9: The claim requires a failing read to abort the run with an
IOError and a nonzero exit; the code instead treats every negative
getline return as end of stream (line 295, and ferror is never
consulted), so the embedded driver, run on a stream whose read fails
right after delivering one line, still emits that line, returns exit
code 0, and is indistinguishable from the run on the same bytes ending
in a clean end of stream. -/
theorem read_error_treated_as_eof :
    (runBatchDriver H0 1 ⟨[97, 10], true⟩).2 = 0 ∧
    (runBatchDriver H0 1 ⟨[97, 10], true⟩).1.length = 1 ∧
    runBatchDriver H0 1 ⟨[97, 10], true⟩ = runBatchDriver H0 1 ⟨[97, 10], false⟩ :=
  ⟨rfl, by decide, rfl⟩

/-- Unfolding of the initialisation trace once both files are open. -/
theorem mainTrace_open (p : Nat) (d bk al : Bool) :
    mainTrace ⟨true, true, p, d, bk, al⟩ = [Ev.openInput, Ev.openOutput, Ev.queryPlatforms] ++
      (if p = 0 then [Ev.exitCode 1]
       else [Ev.queryDevices] ++
         (if ¬ d then [Ev.exitCode 1]
          else [Ev.buildProgram] ++
            (if ¬ bk then [Ev.exitCode 1]
             else [Ev.allocBatchMeta] ++
               (if ¬ al then [Ev.exitCode 1]
                else [Ev.runBatches, Ev.exitCode 0])))) := by
  unfold mainTrace
  simp

/-- C10: In every environment where both fopen calls succeed, the
output file is created (truncated) as the second observable action,
before any platform query, device selection, program build or dispatch;
consequently every run that fails later, because no platform or device
exists, the kernel does not build, or the batch metadata allocation
fails, still leaves the created output file behind while producing no
digest and exiting with code 1. -/
theorem output_created_before_accelerator (e : Env)
    (hin : e.inputOk = true) (hout : e.outputOk = true) :
    (mainTrace e).take 3 = [Ev.openInput, Ev.openOutput, Ev.queryPlatforms] ∧
    (e.platformCount = 0 ∨ e.deviceFound = false ∨ e.buildOk = false ∨ e.allocOk = false →
      Ev.openOutput ∈ mainTrace e ∧ Ev.runBatches ∉ mainTrace e ∧
        Ev.exitCode 1 ∈ mainTrace e) := by
  obtain ⟨i, o, p, d, bk, al⟩ := e
  obtain rfl : i = true := hin
  obtain rfl : o = true := hout
  rw [mainTrace_open]
  by_cases hp : p = 0
  · subst hp
    cases d <;> cases bk <;> cases al <;> exact ⟨by decide, fun _ => by decide⟩
  · rw [if_neg hp]
    cases d <;> cases bk <;> cases al
    · exact ⟨by decide, fun _ => by decide⟩
    · exact ⟨by decide, fun _ => by decide⟩
    · exact ⟨by decide, fun _ => by decide⟩
    · exact ⟨by decide, fun _ => by decide⟩
    · exact ⟨by decide, fun _ => by decide⟩
    · exact ⟨by decide, fun _ => by decide⟩
    · exact ⟨by decide, fun _ => by decide⟩
    · refine ⟨by decide, ?_⟩
      rintro (h | h | h | h)
      · exact absurd h hp
      · cases h
      · cases h
      · cases h

/-- Witness for C10: a device-less environment still opens and hence
creates the output file before failing. -/
theorem output_created_before_accelerator_witness :
    (mainTrace ⟨true, true, 1, false, true, true⟩).take 3
      = [Ev.openInput, Ev.openOutput, Ev.queryPlatforms] ∧
    Ev.runBatches ∉ mainTrace ⟨true, true, 1, false, true, true⟩ :=
  ⟨(output_created_before_accelerator ⟨true, true, 1, false, true, true⟩ rfl rfl).1,
    ((output_created_before_accelerator ⟨true, true, 1, false, true, true⟩ rfl rfl).2
      (by norm_num)).2.1⟩

/-! ## Stride wrap counterexamples (sha256_host.c line 341) -/

/-- A content-sensitive engine used by the wrap counterexamples: every
digest word is the first byte of the lane input. -/
def Hhead : List Nat → Nat → Nat := fun msg _ => msg.headD 0

theorem processBatch_def (H : List Nat → Nat → Nat) (b : List (List Nat)) :
    processBatch H b
      = (acceleratorDispatch H (msgStride (strideOfBatch b)) (packBuffer (strideOfBatch b) b)
          (lensArray b) b.length).map (fun d => digest_to_hex (digestBytes d) ++ [10]) := rfl

theorem pipelineOutput_def (H : List Nat → Nat → Nat) (N : Nat) (s : List Nat) :
    pipelineOutput H N s = ((batches N (records s)).map (processBatch H)).flatten := rfl

theorem records_def (s : List Nat) : records s = (rawLines s).map stripNl := rfl

theorem strideOfBatch_def (b : List (List Nat)) :
    strideOfBatch b = strideBytes (batchMaxLen b) := rfl

theorem batchMaxLen_pair (r1 r2 : List Nat) :
    batchMaxLen [r1, r2] = max (max 0 r1.length) r2.length := rfl

theorem batchMaxLen_single (r : List Nat) : batchMaxLen [r] = max 0 r.length := rfl

theorem lensArray_pair (r1 r2 : List Nat) :
    lensArray [r1, r2] = [lenEntry r1, lenEntry r2] := rfl

theorem packSlot_def (s : Nat) (r : List Nat) :
    packSlot s r = r.take (lenEntry r) ++ List.replicate (s - lenEntry r) 0 := rfl

theorem packBuffer_pair (s : Nat) (r1 r2 : List Nat) :
    packBuffer s [r1, r2] = packSlot s r1 ++ packSlot s r2 := by
  simp [packBuffer]

theorem packBuffer_single (s : Nat) (r : List Nat) :
    packBuffer s [r] = packSlot s r := by
  simp [packBuffer]

theorem acceleratorDispatch_pair (H : List Nat → Nat → Nat) (w : Nat)
    (buf : List Nat) (lens : List Nat) :
    acceleratorDispatch H w buf lens 2
      = [H ((buf.drop (0 * (4 * w))).take (lens.getD 0 0)),
         H ((buf.drop (1 * (4 * w))).take (lens.getD 1 0))] := rfl

theorem acceleratorDispatch_single (H : List Nat → Nat → Nat) (w : Nat)
    (buf : List Nat) (lens : List Nat) :
    acceleratorDispatch H w buf lens 1
      = [H ((buf.drop (0 * (4 * w))).take (lens.getD 0 0))] := rfl

theorem wrap_batches_two {α : Type} (r1 r2 : α) : batches 2 [r1, r2] = [[r1, r2]] := by
  rw [batches_cons 2 r1 [r2] (by norm_num)]
  rw [show ([r1, r2] : List α).take 2 = [r1, r2] from rfl,
    show ([r1, r2] : List α).drop 2 = [] from rfl]
  rw [batches_nil]

theorem wrap_batches_one {α : Type} (r1 r2 : α) : batches 1 [r1, r2] = [[r1], [r2]] := by
  rw [batches_cons 1 r1 [r2] (by norm_num)]
  rw [show ([r1, r2] : List α).take 1 = [r1] from rfl,
    show ([r1, r2] : List α).drop 1 = [r2] from rfl]
  rw [batches_cons 1 r2 [] (by norm_num)]
  rw [show ([r2] : List α).take 1 = [r2] from rfl,
    show ([r2] : List α).drop 1 = [] from rfl]
  rw [batches_nil]

theorem wrap_lenEntry_big : lenEntry (List.replicate (2 ^ 34) 97) = 0 := by
  rw [lenEntry_def, List.length_replicate]
  norm_num

theorem wrap_msgStride : msgStride (2 ^ 34) = 0 := by
  unfold msgStride
  norm_num

theorem wrap_maxLen_pair :
    batchMaxLen [List.replicate (2 ^ 34) 97, [98, 99]] = 2 ^ 34 := by
  rw [batchMaxLen_pair, List.length_replicate]
  show max (max 0 (2 ^ 34)) 2 = 2 ^ 34
  rw [Nat.zero_max, Nat.max_eq_left (by norm_num)]

theorem wrap_stride_pair :
    strideOfBatch [List.replicate (2 ^ 34) 97, [98, 99]] = 2 ^ 34 := by
  rw [strideOfBatch_def, wrap_maxLen_pair, strideBytes_eq_align,
    Nat.max_eq_left (by norm_num : (1 : Nat) ≤ 2 ^ 34)]
  norm_num

theorem wrap_slot_big :
    packSlot (2 ^ 34) (List.replicate (2 ^ 34) 97) = List.replicate (2 ^ 34) 0 := by
  rw [packSlot_def, wrap_lenEntry_big, List.take_zero, List.nil_append, Nat.sub_zero]

theorem wrap_lens_pair :
    lensArray [List.replicate (2 ^ 34) 97, [98, 99]] = [0, 2] := by
  rw [lensArray_pair, wrap_lenEntry_big]
  decide

theorem wrap_processBatch_pair :
    processBatch Hhead [List.replicate (2 ^ 34) 97, [98, 99]]
      = [digest_to_hex (digestBytes (Hhead [])) ++ [10],
         digest_to_hex (digestBytes (Hhead [0, 0])) ++ [10]] := by
  have hlen2 : ([List.replicate (2 ^ 34) 97, [98, 99]] : List (List Nat)).length = 2 := by
    rw [List.length_cons, List.length_cons, List.length_nil]
  rw [processBatch_def, wrap_stride_pair, wrap_msgStride, wrap_lens_pair, hlen2,
    packBuffer_pair, wrap_slot_big, acceleratorDispatch_pair]
  rw [show ([0, 2] : List Nat).getD 0 0 = 0 from rfl,
    show ([0, 2] : List Nat).getD 1 0 = 2 from rfl]
  rw [List.drop_zero, List.take_zero]
  rw [List.take_append_eq_append_take, List.take_replicate, List.length_replicate]
  rw [show min 2 (2 ^ 34) = 2 from by norm_num,
    show (2 : Nat) - 2 ^ 34 = 0 from by norm_num]
  rw [List.take_zero, List.append_nil]
  rfl

theorem wrap_processBatch_single :
    processBatch Hhead [List.replicate (2 ^ 34) 97]
      = [digest_to_hex (digestBytes (Hhead [])) ++ [10]] := by
  have hmax : batchMaxLen [List.replicate (2 ^ 34) 97] = 2 ^ 34 := by
    rw [batchMaxLen_single, List.length_replicate, Nat.zero_max]
  have hstride : strideOfBatch [List.replicate (2 ^ 34) 97] = 2 ^ 34 := by
    rw [strideOfBatch_def, hmax, strideBytes_eq_align,
      Nat.max_eq_left (by norm_num : (1 : Nat) ≤ 2 ^ 34)]
    norm_num
  have hlen1 : ([List.replicate (2 ^ 34) 97] : List (List Nat)).length = 1 := by
    rw [List.length_cons, List.length_nil]
  have hlens : lensArray [List.replicate (2 ^ 34) 97] = [0] := by
    rw [lensArray_singleton, wrap_lenEntry_big]
  rw [processBatch_def, hstride, wrap_msgStride, hlens, hlen1, packBuffer_single,
    acceleratorDispatch_single]
  rw [show ([0] : List Nat).getD 0 0 = 0 from rfl]
  rw [List.drop_zero, List.take_zero]
  rfl

theorem wrap_records :
    records (List.replicate (2 ^ 34) 97 ++ 10 :: [98, 99])
      = [List.replicate (2 ^ 34) 97, [98, 99]] := by
  have hnot : (10 : Nat) ∉ List.replicate (2 ^ 34) 97 := by
    intro hmem
    have h97 := (List.mem_replicate.mp hmem).2
    norm_num at h97
  rw [records_def, rawLines_delim _ _ hnot, List.map_cons, stripNl_concat_delim]
  congr 1

/-- C1 counterexample: in the batch pairing a record of 2 ^ 34 bytes
with the record 98 99, the word stride of line 341 wraps to 0, so lane
1 digests bytes read at slot 0 and the emitted line at index 1 is not
the per-record line of record 1: the per-record association of the
claim fails. -/
theorem emitter_wrap_counterexample :
    (processBatch Hhead [List.replicate (2 ^ 34) 97, [98, 99]]).getD 1 []
      ≠ recordLine Hhead [98, 99] := by
  rw [wrap_processBatch_pair]
  decide

/-- C5 counterexample: on the stream whose first line has 2 ^ 34 bytes
and whose second line is 98 99, maximum batch size 2 wraps the word
stride of line 341 to 0 and the second output line digests bytes of
slot 0, while maximum batch size 1 digests the record itself: the two
runs produce different output. -/
theorem batch_size_wrap_counterexample :
    pipelineOutput Hhead 2 (List.replicate (2 ^ 34) 97 ++ 10 :: [98, 99])
      ≠ pipelineOutput Hhead 1 (List.replicate (2 ^ 34) 97 ++ 10 :: [98, 99]) := by
  rw [pipelineOutput_def, pipelineOutput_def, wrap_records, wrap_batches_two, wrap_batches_one]
  simp only [List.map_cons, List.map_nil, List.flatten_cons, List.flatten_nil, List.append_nil]
  rw [wrap_processBatch_pair, wrap_processBatch_single]
  decide
